import Mathlib

/-!
Verification of the opening-book construction engine of the Strain-On-Veins
repository (book-builder-general.py, standard-bin.py, filter_and_build.py,
color-variant.py).  The Python classes `BookMove`, `BookPosition`, `Book`
and the functions `normalize`, `save_polyglot`, `build_book` are embedded
shallowly: Python dicts become insertion-ordered association lists, Python
machine integers become `Nat` (all weights are built from nonnegative
increments), and the floating point expression
`int(bm.weight / s * MAX_BOOK_WEIGHT)` is modelled by its exact value
`bm.weight * MAX_BOOK_WEIGHT / s` in natural division (the floor of the
exact quotient).  The external chess library (board replay, zobrist
hashing) is abstracted by a `Rules` record: the engine only consumes the
key, the side to move, and the success or failure of pushing a move.
-/

namespace StrainOnVeins

/-- Constant `MAX_BOOK_WEIGHT = 2520` shared by every script. -/
def MAX_BOOK_WEIGHT : Nat := 2520

/-- Constant `MAX_PLY = 50` of book-builder-general.py. -/
def MAX_PLY : Nat := 50

/-- Constant `MIN_RATING = 2350` of book-builder-general.py. -/
def MIN_RATING : Nat := 2350

/-- Constant `MIN_RATING = 2730` of filter_and_build.py (the antichess script). -/
def MIN_RATING_antichess : Nat := 2730

/-- Constant `MIN_RATING = 2400` of color-variant.py (the tournament script). -/
def MIN_RATING_tournament : Nat := 2400

/-- python-chess piece type of a knight (promotion values run 2..5). -/
def KNIGHT : Nat := 2

/-- python-chess piece type of a bishop. -/
def BISHOP : Nat := 3

/-- python-chess piece type of a rook. -/
def ROOK : Nat := 4

/-- python-chess piece type of a queen. -/
def QUEEN : Nat := 5

/-- A chess move as the engine sees it: `move.from_square`,
`move.to_square`, `move.promotion` (a python-chess piece type, 2..5 when
present) and whether the move is a piece drop (python code tests
whether the uci string contains an at sign, which happens exactly for
drop moves). -/
structure Move where
  fromSq : Nat
  toSq : Nat
  promotion : Option Nat
  isDrop : Bool
deriving DecidableEq

/-- Python class `BookMove`: an accumulated weight and the move itself
(`None` until first recorded). -/
structure BookMove where
  weight : Nat
  move : Option Move
deriving DecidableEq

/-- Python class `BookPosition`: the dict `moves` keyed by the move's uci
string, modelled as an insertion-ordered association list keyed by the
move itself (the uci string determines and is determined by the move). -/
abbrev BookPosition := List (Move × BookMove)

/-- Python class `Book`: the dict `positions` keyed by the 16-hex-digit
zobrist key, modelled as an insertion-ordered association list keyed by
the key's numeric value (below 2 ^ 64). -/
abbrev Book := List (Nat × BookPosition)

/-- Sum of the weights of a position entry: `sum(bm.weight for bm in
pos.moves.values())`. -/
def sumWeights (pos : BookPosition) : Nat :=
  (pos.map (fun p => p.2.weight)).sum

/-- The weight stored at index `i` of a position entry (0 past the
end); positions are insertion-ordered, so this reads off the dict
values in order. -/
def weightAt (pos : BookPosition) (i : Nat) : Nat :=
  match pos.drop i with
  | [] => 0
  | p :: _ => p.2.weight

/-- Python `Book.normalize` on one entry: if the weight sum `s` is not
positive the entry is left untouched, otherwise each weight becomes
`max(1, int(bm.weight / s * MAX_BOOK_WEIGHT))`; the float expression is
modelled by exact arithmetic, `int` truncation of the nonnegative
quotient being the floor `bm.weight * MAX_BOOK_WEIGHT / s` of natural
division. -/
def normalizePos (pos : BookPosition) : BookPosition :=
  let s := sumWeights pos
  if s ≤ 0 then pos
  else pos.map (fun p => (p.1, { p.2 with weight := max 1 (p.2.weight * MAX_BOOK_WEIGHT / s) }))

/-- Python `Book.normalize`: every position entry is normalized
independently. -/
def normalize (book : Book) : Book :=
  book.map (fun kp => (kp.1, normalizePos kp.2))

/-- The jitter step of `build_book`:
`bm.weight = min(MAX_BOOK_WEIGHT, bm.weight + random.randint(0, 2))`,
with the random draw `j` passed explicitly. -/
def jitterWeight (j w : Nat) : Nat :=
  min MAX_BOOK_WEIGHT (w + j)

/-- Big-endian byte string of fixed width: `n.to_bytes(len, "big")`
(the value is taken modulo 256 ^ len, as the digits are the remainders
of repeated division). -/
def natToBE : Nat → Nat → List Nat
  | 0, _ => []
  | k + 1, n => natToBE k (n / 256) ++ [n % 256]

/-- The move encoding of `save_polyglot` in book-builder-general.py:
`mi = m.to_square + (m.from_square << 6)` and, when the move promotes,
`mi += ((m.promotion - 1) << 12)`. -/
def encodeMove (m : Move) : Nat :=
  let base := m.toSq + (m.fromSq <<< 6)
  match m.promotion with
  | none => base
  | some p => base + ((p - 1) <<< 12)

/-- The inverse bit-field extraction of the 16-bit move code: bits 0-5
destination, bits 6-11 origin, bits 12-14 the promotion code (0 meaning
no promotion, otherwise piece type minus one). -/
def decodeMove (n : Nat) : Nat × Nat × Option Nat :=
  (n % 64, n / 64 % 64, if n / 4096 % 8 = 0 then none else some (n / 4096 % 8 + 1))

/-- One 16-byte record of `save_polyglot`: zobrist key (8 bytes), move
code (2 bytes), weight clipped to `MAX_BOOK_WEIGHT` (2 bytes), learn
field (4 zero bytes), each big-endian. -/
def polyRecord (k : Nat) (m : Move) (w : Nat) : List Nat :=
  natToBE 8 k ++ natToBE 2 (encodeMove m) ++ natToBE 2 (min MAX_BOOK_WEIGHT w) ++ natToBE 4 0

/-- The per-move body of the entry loop of `save_polyglot` in
book-builder-general.py: skip when `bm.weight <= 0`, when `bm.move is
None`, or when the uci string contains an at sign (a drop move);
otherwise produce the 16-byte record. -/
def emitEntry (k : Nat) (bm : BookMove) : Option (List Nat) :=
  if bm.weight ≤ 0 then none
  else
    match bm.move with
    | none => none
    | some m => if m.isDrop then none else some (polyRecord k m bm.weight)

/-- The qualifying (key, move, weight) triple behind `emitEntry`: the
pairs for which `save_polyglot` emits a record. -/
def qualTriple (k : Nat) (bm : BookMove) : Option (Nat × Move × Nat) :=
  if bm.weight ≤ 0 then none
  else
    match bm.move with
    | none => none
    | some m => if m.isDrop then none else some (k, m, bm.weight)

/-- The unsorted `entries` list accumulated by `save_polyglot` over
`self.positions.items()`. -/
def entriesOf (book : Book) : List (List Nat) :=
  match book with
  | [] => []
  | (k, pos) :: rest => pos.filterMap (fun p => emitEntry k p.2) ++ entriesOf rest

/-- All qualifying (key, move, weight) triples of a book, in entry
order. -/
def qualPairs (book : Book) : List (Nat × Move × Nat) :=
  match book with
  | [] => []
  | (k, pos) :: rest => pos.filterMap (fun p => qualTriple k p.2) ++ qualPairs rest

/-- The per-move body of the entry loop of `save_polyglot` in
standard-bin.py: skip when `bm.weight <= 0`, when `bm.move is None`, or
when `chess.polyglot.encode_move` raises (which for well-formed moves of
the library happens exactly on drop moves, the codec of section 4.2 of
the spec being defined only for origin-square moves); otherwise produce
the 16-byte record. -/
def emitEntryStd (k : Nat) (bm : BookMove) : Option (List Nat) :=
  if bm.weight ≤ 0 then none
  else
    match bm.move with
    | none => none
    | some m => if m.isDrop then none else some (polyRecord k m bm.weight)

/-- The unsorted `entries` list accumulated by `save_polyglot` in
standard-bin.py. -/
def entriesStd (book : Book) : List (List Nat) :=
  match book with
  | [] => []
  | (k, pos) :: rest => pos.filterMap (fun p => emitEntryStd k p.2) ++ entriesStd rest

/-- Lexicographic comparison of byte strings, the order Python uses on
`bytes` values. -/
def bytesLe : List Nat → List Nat → Bool
  | [], _ => true
  | _ :: _, [] => false
  | a :: as, b :: bs => if a < b then true else if b < a then false else bytesLe as bs

/-- Lexicographic comparison of pairs of byte strings, the order Python
uses on 2-tuples of `bytes`. -/
def tupLe (x y : List Nat × List Nat) : Bool :=
  if x.1 = y.1 then bytesLe x.2 y.2 else bytesLe x.1 y.1

/-- The sort key of `entries.sort(key=lambda e: (e[:8], e[10:12]))` in
book-builder-general.py: the first 8 bytes (the position key) and bytes
10-11 (the weight field). -/
def sortKeyGen (e : List Nat) : List Nat × List Nat :=
  (e.take 8, (e.drop 10).take 2)

/-- The (key bytes, move-code bytes) tuple of a record: the first 8
bytes and bytes 8-9. -/
def keyMoveKey (e : List Nat) : List Nat × List Nat :=
  (e.take 8, (e.drop 8).take 2)

/-- Comparator of the general script's `entries.sort`. -/
abbrev rGen (a b : List Nat) : Prop :=
  tupLe (sortKeyGen a) (sortKeyGen b) = true

/-- Plain `entries.sort()` of standard-bin.py: full lexicographic order
on the 16-byte records. -/
abbrev rStd (a b : List Nat) : Prop :=
  bytesLe a b = true

/-- Ascending order on the (key bytes, move-code bytes) tuple, the order
the spec requires of the output. -/
abbrev rKeyMove (a b : List Nat) : Prop :=
  tupLe (keyMoveKey a) (keyMoveKey b) = true

/-- `Book.save_polyglot` of book-builder-general.py (and of
filter_and_build.py and color-variant.py, which repeat it verbatim): the
entry records sorted by `(e[:8], e[10:12])` with a stable sort, as the
list of records subsequently written to the file. -/
def save_polyglot (book : Book) : List (List Nat) :=
  List.insertionSort rGen (entriesOf book)

/-- `Book.save_polyglot` of standard-bin.py: plain `entries.sort()`. -/
def save_polyglot_std (book : Book) : List (List Nat) :=
  List.insertionSort rStd (entriesStd book)

/-- Concatenation of the records in file order: the byte stream written
to the output file. -/
def flattenRecs : List (List Nat) → List Nat
  | [] => []
  | e :: t => e ++ flattenRecs t

/-- The byte stream `save_polyglot` writes for a book. -/
def outputBytes (book : Book) : List Nat :=
  flattenRecs (save_polyglot book)

/-- Whether a `BookMove` holds a drop move. -/
def isDropBM (bm : BookMove) : Bool :=
  match bm.move with
  | none => false
  | some m => m.isDrop

/-- The book with every drop move deleted from every position entry. -/
def dropFilter (book : Book) : Book :=
  book.map (fun kp => (kp.1, kp.2.filter (fun p => !(isDropBM p.2))))

/-- The external rules engine (python-chess) as the aggregator consumes
it: a zobrist key and a side to move for every board, and a `push`
operation that either advances the board or fails (raises). -/
structure Rules (B : Type) where
  keyOf : B → Nat
  turnOf : B → Bool
  push : B → Move → Option B

/-- The decay factor of `build_book`: `max(1, (MAX_PLY - ply) // 5)`. -/
def decay (maxPly ply : Nat) : Nat :=
  max 1 ((maxPly - ply) / 5)

/-- The outcome-dependent weight increment of `build_book` in
book-builder-general.py: `5 * decay` when the side to move is the
winner, `2 * decay` when a winner exists but is the other side,
`3 * decay` when there is no winner. -/
def increment (winner : Option Bool) (turn : Bool) (d : Nat) : Nat :=
  match winner with
  | some w => if turn = w then 5 * d else 2 * d
  | none => 3 * d

/-- The effect on one position entry of
`bm = pos.get_move(move.uci()); bm.move = move; bm.weight += inc`:
`setdefault` either finds the existing record or appends a fresh one of
weight 0, then the move field is set and the weight bumped. -/
def recordInPos (m : Move) (inc : Nat) : BookPosition → BookPosition
  | [] => [(m, { weight := inc, move := some m })]
  | (m2, bm) :: rest =>
    if m2 = m then (m2, { weight := bm.weight + inc, move := some m }) :: rest
    else (m2, bm) :: recordInPos m inc rest

/-- The effect on the book of
`pos = book.get_position(k)` followed by the move record update. -/
def recordInBook (book : Book) (k : Nat) (m : Move) (inc : Nat) : Book :=
  match book with
  | [] => [(k, recordInPos m inc [])]
  | (k2, pos) :: rest =>
    if k2 = k then (k2, recordInPos m inc pos) :: rest
    else (k2, pos) :: recordInBook rest k m inc

/-- One iteration of the replay loop of `build_book` up to the `push`:
key the current board, record the observed move with the outcome- and
ply-dependent increment. -/
def recordPly {B : Type} (R : Rules B) (winner : Option Bool) (maxPly ply : Nat)
    (b : B) (m : Move) (book : Book) : Book :=
  recordInBook book (R.keyOf b) m (increment winner (R.turnOf b) (decay maxPly ply))

/-- The replay loop of `build_book` over the mainline moves of one game:
stop at `maxPly`; otherwise record the move and then push it, breaking
out of the loop (keeping the record just made) when the push fails —
in the Python source the weight update precedes `board.push(move)`
inside the same try block, so the failing ply is still recorded. -/
def ingestFrom {B : Type} (R : Rules B) (winner : Option Bool) (maxPly : Nat) :
    Nat → B → List Move → Book → Book
  | _, _, [], book => book
  | ply, b, m :: ms, book =>
    if maxPly ≤ ply then book
    else
      match R.push b m with
      | some b2 => ingestFrom R winner maxPly (ply + 1) b2 ms (recordPly R winner maxPly ply b m book)
      | none => recordPly R winner maxPly ply b m book

/-- Replay a move list from a board, failing when any push fails. -/
def replayTo {B : Type} (R : Rules B) : B → List Move → Option B
  | b, [] => some b
  | b, m :: ms =>
    match R.push b m with
    | some b2 => replayTo R b2 ms
    | none => none

/-- Association-list lookup of a position entry by key. -/
def lookupPos : Book → Nat → Option BookPosition
  | [], _ => none
  | (k2, pos) :: rest, k => if k2 = k then some pos else lookupPos rest k

/-- Association-list lookup of a move record in a position entry. -/
def lookupMove : BookPosition → Move → Option BookMove
  | [], _ => none
  | (m2, bm) :: rest, m => if m2 = m then some bm else lookupMove rest m

/-- The accumulated weight of a (key, move) pair in a book (0 when
absent). -/
def weightIn (book : Book) (k : Nat) (m : Move) : Nat :=
  match lookupPos book k with
  | none => 0
  | some pos =>
    match lookupMove pos m with
    | none => 0
    | some bm => bm.weight

/-- A rating header as the scripts see it: absent, present but not an
integer literal, or an integer value. -/
inductive EloTag
  | missing
  | bad
  | val (n : Nat)
deriving DecidableEq

/-- The integer value of a rating header when it is treated as 0 on
absence or parse failure. -/
def eloVal : EloTag → Nat
  | EloTag.missing => 0
  | EloTag.bad => 0
  | EloTag.val n => n

/-- The rating values book-builder-general.py computes:
`int(game.headers.get("WhiteElo", 0))` and the same for black inside one
try block whose `except ValueError` sets `white_elo = black_elo = 0` —
a parse failure on either header zeroes both values; a missing header
yields the integer default 0 without raising. -/
def elosGeneral (w b : EloTag) : Nat × Nat :=
  if w = EloTag.bad ∨ b = EloTag.bad then (0, 0) else (eloVal w, eloVal b)

/-- The rating admission step of book-builder-general.py: the game is
kept (as far as ratings are concerned) unless
`white_elo < MIN_RATING and black_elo < MIN_RATING`. -/
def admitEloGeneral (w b : EloTag) : Bool :=
  !((elosGeneral w b).1 < MIN_RATING && (elosGeneral w b).2 < MIN_RATING)

/-- The rating admission step of filter_and_build.py: the try block
around both parses has `except ValueError: continue`, so a parse failure
rejects the game outright; otherwise the game is kept unless
`white_elo < MIN_RATING or black_elo < MIN_RATING` (threshold 2730). -/
def admitEloAntichess (w b : EloTag) : Bool :=
  if w = EloTag.bad ∨ b = EloTag.bad then false
  else !(eloVal w < MIN_RATING_antichess || eloVal b < MIN_RATING_antichess)

/-- The rating admission step of color-variant.py: same shape as
filter_and_build.py with threshold 2400. -/
def admitEloTournament (w b : EloTag) : Bool :=
  if w = EloTag.bad ∨ b = EloTag.bad then false
  else !(eloVal w < MIN_RATING_tournament || eloVal b < MIN_RATING_tournament)

/-- Modelled from the spec (claim C9 wording): missing or unparseable
ratings are treated as 0 and the game is still evaluated against the
threshold, in the at-least-one configuration. -/
def admitEloSpecAtLeastOne (threshold : Nat) (w b : EloTag) : Bool :=
  !(eloVal w < threshold && eloVal b < threshold)

/-- Modelled from the spec (claim C9 wording): missing or unparseable
ratings are treated as 0 and the game is still evaluated against the
threshold, in the both-must-meet configuration. -/
def admitEloSpecBoth (threshold : Nat) (w b : EloTag) : Bool :=
  !(eloVal w < threshold || eloVal b < threshold)

/-- Concrete move b1a1 (origin square 1, destination 0). -/
def mA : Move := { fromSq := 1, toSq := 0, promotion := none, isDrop := false }

/-- Concrete move a1b1 (origin square 0, destination 1). -/
def mB : Move := { fromSq := 0, toSq := 1, promotion := none, isDrop := false }

/-- Concrete move c1d1 (origin square 2, destination 3). -/
def mC : Move := { fromSq := 2, toSq := 3, promotion := none, isDrop := false }

/-- Concrete promotion move e7e8q (origin 52, destination 60, queen). -/
def mQ : Move := { fromSq := 52, toSq := 60, promotion := some QUEEN, isDrop := false }

/-- Concrete drop move (no origin square). -/
def mDrop : Move := { fromSq := 0, toSq := 9, promotion := none, isDrop := true }

/-- A concrete book: one position, two moves whose weight order is the
reverse of their move-code order (`mA` encodes to 64, `mB` to 1). -/
def cbook1 : Book :=
  [(0, [(mA, { weight := 10, move := some mA }), (mB, { weight := 20, move := some mB })])]

/-- A concrete position entry with weights 1 and 999 (sum 1000). -/
def cpos2 : BookPosition :=
  [(mA, { weight := 1, move := some mA }), (mB, { weight := 999, move := some mB })]

/-- A concrete position entry with weights 10, 5, 5 (sum 20), the
scenario of section 8 of the spec. -/
def cpos7 : BookPosition :=
  [(mA, { weight := 10, move := some mA }),
   (mB, { weight := 5, move := some mB }),
   (mC, { weight := 5, move := some mC })]

/-- A position entry holding `n` distinct moves of weight 1 each
(distinct origin squares). -/
def mkBigPos : Nat → BookPosition
  | 0 => []
  | n + 1 =>
    ({ fromSq := n, toSq := 0, promotion := none, isDrop := false },
      { weight := 1, move := none }) :: mkBigPos n

/-- A concrete rules engine on `Nat` boards whose push always fails
(every move is rejected by the replay). -/
def RNat : Rules Nat :=
  { keyOf := fun b => b, turnOf := fun _ => false, push := fun _ _ => none }

/-- A concrete rules engine on `Nat` boards whose push always succeeds
and increments the board counter (key equals the counter). -/
def RNatOk : Rules Nat :=
  { keyOf := fun b => b, turnOf := fun b => b % 2 = 0, push := fun b _ => some (b + 1) }

/-! Helper lemmas about the byte-string orders. -/

theorem bytesLe_refl : ∀ a : List Nat, bytesLe a a = true
  | [] => rfl
  | x :: xs => by simp [bytesLe, bytesLe_refl xs]

theorem bytesLe_total : ∀ a b : List Nat, bytesLe a b = true ∨ bytesLe b a = true
  | [], _ => Or.inl rfl
  | _ :: _, [] => Or.inr rfl
  | a :: as, b :: bs => by
    rcases Nat.lt_trichotomy a b with h | h | h
    · exact Or.inl (by simp [bytesLe, h])
    · subst h
      rcases bytesLe_total as bs with h2 | h2
      · exact Or.inl (by simp [bytesLe, h2])
      · exact Or.inr (by simp [bytesLe, h2])
    · exact Or.inr (by simp [bytesLe, h])

theorem bytesLe_trans : ∀ a b c : List Nat,
    bytesLe a b = true → bytesLe b c = true → bytesLe a c = true
  | [], _, _, _, _ => rfl
  | _ :: _, [], _, h, _ => by simp [bytesLe] at h
  | _ :: _, _ :: _, [], _, h => by simp [bytesLe] at h
  | a :: as, b :: bs, c :: cs, h1, h2 => by
    rcases Nat.lt_trichotomy a b with hab | hab | hab
    · rcases Nat.lt_trichotomy b c with hbc | hbc | hbc
      · simp [bytesLe, Nat.lt_trans hab hbc]
      · subst hbc; simp [bytesLe, hab]
      · simp [bytesLe, Nat.lt_asymm hbc, hbc] at h2
    · subst hab
      simp only [bytesLe, Nat.lt_irrefl, if_false] at h1
      rcases Nat.lt_trichotomy a c with hac | hac | hac
      · simp [bytesLe, hac]
      · subst hac
        simp only [bytesLe, Nat.lt_irrefl, if_false] at h2 ⊢
        exact bytesLe_trans as bs cs h1 h2
      · simp [bytesLe, Nat.lt_asymm hac, hac] at h2
    · simp [bytesLe, Nat.lt_asymm hab, hab] at h1

theorem bytesLe_antisymm : ∀ a b : List Nat,
    bytesLe a b = true → bytesLe b a = true → a = b
  | [], [], _, _ => rfl
  | [], _ :: _, _, h => by simp [bytesLe] at h
  | _ :: _, [], h, _ => by simp [bytesLe] at h
  | a :: as, b :: bs, h1, h2 => by
    rcases Nat.lt_trichotomy a b with hab | hab | hab
    · simp [bytesLe, Nat.lt_asymm hab, hab] at h2
    · subst hab
      simp only [bytesLe, Nat.lt_irrefl, if_false] at h1 h2
      rw [bytesLe_antisymm as bs h1 h2]
    · simp [bytesLe, Nat.lt_asymm hab, hab] at h1

theorem tupLe_refl (x : List Nat × List Nat) : tupLe x x = true := by
  simp [tupLe, bytesLe_refl]

theorem tupLe_total (x y : List Nat × List Nat) : tupLe x y = true ∨ tupLe y x = true := by
  by_cases h : x.1 = y.1
  · simp only [tupLe, h, if_pos rfl, if_true]
    exact bytesLe_total x.2 y.2
  · rw [tupLe, if_neg h, tupLe, if_neg (fun hc => h hc.symm)]
    exact bytesLe_total x.1 y.1

theorem tupLe_trans (x y z : List Nat × List Nat) :
    tupLe x y = true → tupLe y z = true → tupLe x z = true := by
  intro h1 h2
  by_cases hxy : x.1 = y.1 <;> by_cases hyz : y.1 = z.1
  · rw [tupLe, if_pos hxy] at h1
    rw [tupLe, if_pos hyz] at h2
    rw [tupLe, if_pos (hxy.trans hyz)]
    exact bytesLe_trans _ _ _ h1 h2
  · rw [tupLe, if_neg hyz] at h2
    rw [tupLe, if_neg (fun hc => hyz (hxy ▸ hc)), hxy]
    exact h2
  · rw [tupLe, if_neg hxy] at h1
    rw [tupLe, if_neg (fun hc => hxy (hyz ▸ hc)), ← hyz]
    exact h1
  · rw [tupLe, if_neg hxy] at h1
    rw [tupLe, if_neg hyz] at h2
    by_cases hxz : x.1 = z.1
    · exact absurd (bytesLe_antisymm _ _ h1 (hxz ▸ h2)) hxy
    · rw [tupLe, if_neg hxz]
      exact bytesLe_trans _ _ _ h1 h2

instance : IsTotal (List Nat) rGen := ⟨fun _ _ => tupLe_total _ _⟩

instance : IsTrans (List Nat) rGen := ⟨fun _ _ _ => tupLe_trans _ _ _⟩

instance : IsTotal (List Nat) rStd := ⟨fun a b => bytesLe_total a b⟩

instance : IsTrans (List Nat) rStd := ⟨fun a b c => bytesLe_trans a b c⟩

instance : IsTotal (List Nat) rKeyMove := ⟨fun _ _ => tupLe_total _ _⟩

instance : IsTrans (List Nat) rKeyMove := ⟨fun _ _ _ => tupLe_trans _ _ _⟩

/-! Helper lemmas about the serializer. -/

theorem natToBE_length : ∀ (k n : Nat), (natToBE k n).length = k
  | 0, _ => rfl
  | k + 1, n => by simp [natToBE, natToBE_length k]

theorem polyRecord_length (k : Nat) (m : Move) (w : Nat) : (polyRecord k m w).length = 16 := by
  simp [polyRecord, natToBE_length]

theorem emitEntry_shape (k : Nat) (bm : BookMove) (e : List Nat) (h : emitEntry k bm = some e) :
    ∃ m, bm.move = some m ∧ m.isDrop = false ∧ bm.weight ≠ 0 ∧ e = polyRecord k m bm.weight := by
  unfold emitEntry at h
  by_cases h0 : bm.weight ≤ 0
  · rw [if_pos h0] at h
    exact absurd h (by simp)
  · rw [if_neg h0] at h
    rcases hm : bm.move with _ | m
    · rw [hm] at h
      exact absurd h (by simp)
    · rw [hm] at h
      by_cases hd : m.isDrop = true
      · simp [hd] at h
      · simp only [hd, if_false] at h
        exact ⟨m, rfl, Bool.not_eq_true _ ▸ hd, fun hw => h0 (Nat.le_of_eq hw),
          (Option.some.inj h).symm⟩

theorem emitEntry_eq_map (k : Nat) (bm : BookMove) :
    emitEntry k bm = (qualTriple k bm).map (fun t => polyRecord t.1 t.2.1 t.2.2) := by
  unfold emitEntry qualTriple
  by_cases h0 : bm.weight ≤ 0
  · simp [h0]
  · simp only [if_neg h0]
    rcases bm.move with _ | m
    · simp
    · by_cases hd : m.isDrop <;> simp [hd]

theorem emitEntryStd_eq (k : Nat) (bm : BookMove) : emitEntryStd k bm = emitEntry k bm := rfl

theorem entriesOf_eq_map : ∀ book : Book,
    entriesOf book = (qualPairs book).map (fun t => polyRecord t.1 t.2.1 t.2.2)
  | [] => rfl
  | (k, pos) :: rest => by
    simp only [entriesOf, qualPairs, List.map_append, entriesOf_eq_map rest]
    congr 1
    rw [List.map_filterMap]
    exact List.filterMap_congr (fun p _ => emitEntry_eq_map k p.2)

theorem length_of_mem_entriesOf : ∀ (book : Book) (e : List Nat),
    e ∈ entriesOf book → e.length = 16
  | [], e, h => by simp [entriesOf] at h
  | (k, pos) :: rest, e, h => by
    rcases List.mem_append.mp h with h2 | h2
    · rcases List.mem_filterMap.mp h2 with ⟨p, _, hp⟩
      rcases emitEntry_shape k p.2 e hp with ⟨m, _, _, _, he⟩
      rw [he]
      exact polyRecord_length k m p.2.weight
    · exact length_of_mem_entriesOf rest e h2

theorem flattenRecs_length : ∀ l : List (List Nat),
    (∀ e ∈ l, e.length = 16) → (flattenRecs l).length = 16 * l.length
  | [], _ => rfl
  | e :: t, h => by
    have ht := flattenRecs_length t (fun x hx => h x (List.mem_cons_of_mem e hx))
    have he := h e (List.mem_cons_self e t)
    simp [flattenRecs, List.length_append, he, ht, List.length_cons, Nat.mul_succ, Nat.add_comm]

theorem bytesLe_append : ∀ (xs ys u v : List Nat), xs.length = ys.length →
    bytesLe (xs ++ u) (ys ++ v) = if xs = ys then bytesLe u v else bytesLe xs ys
  | [], [], u, v, _ => by simp
  | [], _ :: _, _, _, h => by simp at h
  | _ :: _, [], _, _, h => by simp at h
  | x :: xs, y :: ys, u, v, h => by
    have hlen : xs.length = ys.length := by simpa using h
    rcases Nat.lt_trichotomy x y with hxy | hxy | hxy
    · have hne : (x :: xs : List Nat) ≠ y :: ys := by
        intro hc
        cases hc
        exact Nat.lt_irrefl x hxy
      simp [bytesLe, hxy, hne]
    · subst hxy
      have hrec := bytesLe_append xs ys u v hlen
      simp only [List.cons_append, bytesLe, Nat.lt_irrefl, if_false, List.cons.injEq, true_and,
        List.append_eq, hrec]
    · have hne : (x :: xs : List Nat) ≠ y :: ys := by
        intro hc
        cases hc
        exact Nat.lt_irrefl x hxy
      simp [bytesLe, Nat.lt_asymm hxy, hxy, hne]

theorem keyMove_of_bytesLe (a b : List Nat) (ha : a.length = 16) (hb : b.length = 16)
    (h : bytesLe a b = true) : rKeyMove a b := by
  have ha8 : (a.take 8).length = (b.take 8).length := by
    simp [List.length_take, ha, hb]
  have ha2 : ((a.drop 8).take 2).length = ((b.drop 8).take 2).length := by
    simp [List.length_take, List.length_drop, ha, hb]
  have hsa : (a.take 8) ++ (((a.drop 8).take 2) ++ ((a.drop 8).drop 2)) = a := by
    rw [List.take_append_drop, List.take_append_drop]
  have hsb : (b.take 8) ++ (((b.drop 8).take 2) ++ ((b.drop 8).drop 2)) = b := by
    rw [List.take_append_drop, List.take_append_drop]
  rw [← hsa, ← hsb, bytesLe_append _ _ _ _ ha8] at h
  show tupLe (keyMoveKey a) (keyMoveKey b) = true
  unfold keyMoveKey
  by_cases hk : a.take 8 = b.take 8
  · rw [if_pos hk] at h
    rw [bytesLe_append _ _ _ _ ha2] at h
    by_cases hm : (a.drop 8).take 2 = (b.drop 8).take 2
    · rw [tupLe, if_pos (by simp [hk, hm] : (a.take 8, (a.drop 8).take 2).1 = (b.take 8, (b.drop 8).take 2).1)]
      simp [hm, bytesLe_refl]
    · rw [if_neg hm] at h
      rw [tupLe, if_pos (by simp [hk] : (a.take 8, (a.drop 8).take 2).1 = (b.take 8, (b.drop 8).take 2).1)]
      exact h
  · rw [if_neg hk] at h
    rw [tupLe, if_neg (by simpa using hk : ¬(a.take 8, (a.drop 8).take 2).1 = (b.take 8, (b.drop 8).take 2).1)]
    exact h

/-! Helper lemmas about the normalizer. -/

theorem sumWeights_nil : sumWeights [] = 0 := rfl

theorem sumWeights_cons (p : Move × BookMove) (rest : BookPosition) :
    sumWeights (p :: rest) = p.2.weight + sumWeights rest := by
  simp [sumWeights]

theorem weightAt_cons_zero (p : Move × BookMove) (rest : BookPosition) :
    weightAt (p :: rest) 0 = p.2.weight := rfl

theorem weightAt_cons_succ (p : Move × BookMove) (rest : BookPosition) (i : Nat) :
    weightAt (p :: rest) (i + 1) = weightAt rest i := rfl

theorem weightAt_le_sumWeights : ∀ (pos : BookPosition) (i : Nat),
    weightAt pos i ≤ sumWeights pos
  | [], i => by simp [weightAt, List.drop_nil]
  | p :: rest, 0 => by
    rw [weightAt_cons_zero, sumWeights_cons]
    exact Nat.le_add_right _ _
  | p :: rest, i + 1 => by
    rw [weightAt_cons_succ, sumWeights_cons]
    exact Nat.le_trans (weightAt_le_sumWeights rest i) (Nat.le_add_left _ _)

theorem normalizePos_of_pos (pos : BookPosition) (h : 0 < sumWeights pos) :
    normalizePos pos =
      pos.map (fun p => (p.1, { p.2 with weight := max 1 (p.2.weight * MAX_BOOK_WEIGHT / sumWeights pos) })) := by
  unfold normalizePos
  rw [if_neg (by omega)]

theorem normalizePos_length (pos : BookPosition) : (normalizePos pos).length = pos.length := by
  unfold normalizePos
  by_cases h : sumWeights pos ≤ 0
  · rw [if_pos h]
  · rw [if_neg h, List.length_map]

theorem weightAt_map (g : Nat → Nat) : ∀ (pos : BookPosition) (i : Nat), i < pos.length →
    weightAt (pos.map (fun p => (p.1, { p.2 with weight := g p.2.weight }))) i = g (weightAt pos i)
  | [], i, h => by simp at h
  | p :: rest, 0, _ => rfl
  | p :: rest, i + 1, h => by
    rw [List.map_cons, weightAt_cons_succ, weightAt_cons_succ]
    exact weightAt_map g rest i (by simpa using h)

theorem weightAt_normalizePos (pos : BookPosition) (h : 0 < sumWeights pos) (i : Nat)
    (hi : i < pos.length) :
    weightAt (normalizePos pos) i = max 1 (weightAt pos i * MAX_BOOK_WEIGHT / sumWeights pos) := by
  rw [normalizePos_of_pos pos h]
  exact weightAt_map (fun w => max 1 (w * MAX_BOOK_WEIGHT / sumWeights pos)) pos i hi

theorem sumWeights_of_all_one : ∀ pos : BookPosition,
    (∀ p ∈ pos, p.2.weight = 1) → sumWeights pos = pos.length
  | [], _ => rfl
  | p :: rest, h => by
    rw [sumWeights_cons, h p (List.mem_cons_self p rest),
      sumWeights_of_all_one rest (fun q hq => h q (List.mem_cons_of_mem p hq)),
      List.length_cons]
    omega

theorem mkBigPos_length : ∀ n : Nat, (mkBigPos n).length = n
  | 0 => rfl
  | n + 1 => by simp [mkBigPos, mkBigPos_length n]

theorem mkBigPos_weights : ∀ n : Nat, ∀ p ∈ mkBigPos n, p.2.weight = 1
  | n + 1, p, h => by
    rcases List.mem_cons.mp h with h2 | h2
    · rw [h2]
    · exact mkBigPos_weights n p h2

theorem sumWeights_mkBigPos (n : Nat) : sumWeights (mkBigPos n) = n := by
  rw [sumWeights_of_all_one (mkBigPos n) (mkBigPos_weights n), mkBigPos_length]

theorem mkBigPos_fromSq_lt : ∀ n : Nat, ∀ p ∈ mkBigPos n, p.1.fromSq < n
  | n + 1, p, h => by
    rcases List.mem_cons.mp h with h2 | h2
    · rw [h2]
      exact Nat.lt_succ_self n
    · exact Nat.lt_trans (mkBigPos_fromSq_lt n p h2) (Nat.lt_succ_self n)

theorem mkBigPos_keys_nodup : ∀ n : Nat, List.Nodup ((mkBigPos n).map Prod.fst)
  | 0 => List.nodup_nil
  | n + 1 => by
    rw [mkBigPos, List.map_cons, List.nodup_cons]
    refine ⟨fun hmem => ?_, mkBigPos_keys_nodup n⟩
    rcases List.mem_map.mp hmem with ⟨p, hp, hq⟩
    have := mkBigPos_fromSq_lt n p hp
    rw [hq] at this
    exact Nat.lt_irrefl n this

theorem sumWeights_normalize_mkBigPos (n : Nat) (h : MAX_BOOK_WEIGHT < n) :
    sumWeights (normalizePos (mkBigPos n)) = n := by
  have hs : sumWeights (mkBigPos n) = n := sumWeights_mkBigPos n
  have hpos : 0 < sumWeights (mkBigPos n) := by omega
  rw [normalizePos_of_pos _ hpos]
  rw [sumWeights_of_all_one _ ?_]
  · rw [List.length_map, mkBigPos_length]
  · intro q hq
    rcases List.mem_map.mp hq with ⟨p, hp, hq2⟩
    rw [← hq2]
    have hw := mkBigPos_weights n p hp
    simp only [hw, hs, Nat.one_mul]
    rw [Nat.div_eq_of_lt h]
    simp

theorem weightAt_normalizePos_le (pos : BookPosition) (h : 0 < sumWeights pos) (i : Nat)
    (hi : i < pos.length) : weightAt (normalizePos pos) i ≤ MAX_BOOK_WEIGHT := by
  rw [weightAt_normalizePos pos h i hi]
  have hws : weightAt pos i ≤ sumWeights pos := weightAt_le_sumWeights pos i
  have hfle : weightAt pos i * MAX_BOOK_WEIGHT / sumWeights pos ≤ MAX_BOOK_WEIGHT := by
    calc weightAt pos i * MAX_BOOK_WEIGHT / sumWeights pos
        ≤ sumWeights pos * MAX_BOOK_WEIGHT / sumWeights pos :=
          Nat.div_le_div_right (Nat.mul_le_mul_right _ hws)
      _ = MAX_BOOK_WEIGHT := by
          rw [Nat.mul_comm]
          exact Nat.mul_div_cancel _ h
  exact max_le (by norm_num [MAX_BOOK_WEIGHT]) hfle

theorem floor_cast_eq_div (w s : Nat) :
    (Nat.floor ((w * MAX_BOOK_WEIGHT : ℚ) / (s : ℚ)) : Nat) = w * MAX_BOOK_WEIGHT / s := by
  rw [← Nat.cast_mul, Nat.floor_div_eq_div]

/-! Helper lemmas about the aggregator. -/

theorem lookupMove_recordInPos (m : Move) (inc : Nat) : ∀ pos : BookPosition,
    lookupMove (recordInPos m inc pos) m =
      some { weight := (match lookupMove pos m with
                        | none => 0
                        | some bm => bm.weight) + inc, move := some m }
  | [] => by simp [recordInPos, lookupMove]
  | (m2, bm) :: rest => by
    by_cases h : m2 = m
    · subst h
      simp [recordInPos, lookupMove]
    · rw [recordInPos, if_neg h, lookupMove, if_neg h, lookupMove, if_neg h]
      exact lookupMove_recordInPos m inc rest

theorem lookupPos_recordInBook (k : Nat) (m : Move) (inc : Nat) : ∀ book : Book,
    lookupPos (recordInBook book k m inc) k =
      some (recordInPos m inc (match lookupPos book k with
                               | none => []
                               | some pos => pos))
  | [] => by simp [recordInBook, lookupPos]
  | (k2, pos) :: rest => by
    by_cases h : k2 = k
    · subst h
      simp [recordInBook, lookupPos]
    · rw [recordInBook, if_neg h, lookupPos, if_neg h, lookupPos, if_neg h]
      exact lookupPos_recordInBook k m inc rest

theorem weightIn_recordInBook (book : Book) (k : Nat) (m : Move) (inc : Nat) :
    weightIn (recordInBook book k m inc) k m = weightIn book k m + inc := by
  unfold weightIn
  simp only [lookupPos_recordInBook, lookupMove_recordInPos]
  rcases hp : lookupPos book k with _ | pos
  · simp [hp, lookupMove]
  · simp [hp]

theorem entriesStd_eq : ∀ book : Book, entriesStd book = entriesOf book
  | [] => rfl
  | (k, pos) :: rest => by
    simp only [entriesStd, entriesOf, entriesStd_eq rest, emitEntryStd_eq]

theorem filterMap_filter_eq {α β : Type _} (p : α → Bool) (f : α → Option β)
    (h : ∀ a, p a = false → f a = none) : ∀ l : List α, (l.filter p).filterMap f = l.filterMap f
  | [] => rfl
  | a :: t => by
    rcases hp : p a with _ | _
    · rw [List.filter_cons_of_neg (by simp [hp]), List.filterMap_cons, h a hp]
      exact filterMap_filter_eq p f h t
    · rw [List.filter_cons_of_pos hp, List.filterMap_cons, List.filterMap_cons,
        filterMap_filter_eq p f h t]

theorem emitEntry_of_drop (k : Nat) (bm : BookMove) (h : isDropBM bm = true) :
    emitEntry k bm = none := by
  unfold isDropBM at h
  unfold emitEntry
  rcases hm : bm.move with _ | m
  · rw [hm] at h
    simp at h
  · rw [hm] at h
    simp at h
    by_cases h0 : bm.weight ≤ 0
    · rw [if_pos h0]
    · rw [if_neg h0]
      simp [h]

theorem entriesOf_dropFilter : ∀ book : Book, entriesOf (dropFilter book) = entriesOf book
  | [] => rfl
  | (k, pos) :: rest => by
    simp only [dropFilter, List.map_cons, entriesOf]
    have hrest : entriesOf (dropFilter rest) = entriesOf rest := entriesOf_dropFilter rest
    rw [show entriesOf (List.map (fun kp => (kp.1, List.filter (fun p => !isDropBM p.2) kp.2)) rest)
          = entriesOf rest from hrest]
    rw [filterMap_filter_eq (fun p => !isDropBM p.2) (fun p => emitEntry k p.2)
      (fun a ha => emitEntry_of_drop k a.2 (by simpa using ha)) pos]

/-! Claim theorems. -/

/-- C1 (counterexample to the claim as stated): the serializer of
book-builder-general.py sorts by `(e[:8], e[10:12])`, i.e. by (key
bytes, weight bytes), not by (key bytes, move bytes).  On the concrete
book `cbook1` (one position, two moves whose weight order reverses
their move-code order) the emitted records are not sorted by the
(PositionKey bytes, encoded-move bytes) tuple. -/
theorem spec_c1_counterexample : ¬ List.Sorted rKeyMove (save_polyglot cbook1) := by decide

/-- C1 (amended): the serializer of book-builder-general.py (repeated
in filter_and_build.py and color-variant.py) emits its records sorted
ascending by the tuple (PositionKey bytes, weight bytes) — the sort key
`(e[:8], e[10:12])` — while the serializer of standard-bin.py sorts by
the full record bytes, which does order records by the tuple
(PositionKey bytes, encoded-move bytes). -/
theorem spec_c1_amended (book : Book) :
    List.Sorted rGen (save_polyglot book) ∧ List.Sorted rKeyMove (save_polyglot_std book) := by
  refine ⟨List.sorted_insertionSort rGen (entriesOf book), ?_⟩
  have hs : List.Pairwise rStd (save_polyglot_std book) :=
    List.sorted_insertionSort rStd (entriesStd book)
  have hlen : ∀ e ∈ save_polyglot_std book, e.length = 16 := by
    intro e he
    have hmem : e ∈ entriesStd book :=
      (List.perm_insertionSort rStd (entriesStd book)).mem_iff.mp he
    rw [entriesStd_eq] at hmem
    exact length_of_mem_entriesOf book e hmem
  exact List.Pairwise.imp_of_mem
    (fun ha hb hr => keyMove_of_bytesLe _ _ (hlen _ ha) (hlen _ hb) hr) hs

/-- C5 (confirmed): `save_polyglot` emits exactly one 16-byte record per
(PositionEntry, MoveRecord) pair with positive weight and an encodable
(non-drop) move: the output is a permutation of one `polyRecord` per
qualifying pair, every record is 16 bytes long and consists of the
8-byte big-endian key, the 2-byte big-endian move code, the 2-byte
big-endian weight clipped to `MAX_BOOK_WEIGHT` and four zero bytes, and
the total output byte length is `16 * (number of records)`, an exact
multiple of 16. -/
theorem spec_c5 (book : Book) :
    (∀ e ∈ save_polyglot book, e.length = 16) ∧
    List.Perm (save_polyglot book) ((qualPairs book).map (fun t => polyRecord t.1 t.2.1 t.2.2)) ∧
    (save_polyglot book).length = (qualPairs book).length ∧
    (outputBytes book).length = 16 * (qualPairs book).length ∧
    (outputBytes book).length % 16 = 0 ∧
    ∀ t ∈ qualPairs book, polyRecord t.1 t.2.1 t.2.2 =
      natToBE 8 t.1 ++ natToBE 2 (encodeMove t.2.1) ++ natToBE 2 (min MAX_BOOK_WEIGHT t.2.2) ++
        [0, 0, 0, 0] := by
  have hmem : ∀ e ∈ save_polyglot book, e ∈ entriesOf book :=
    fun e he => (List.perm_insertionSort rGen (entriesOf book)).mem_iff.mp he
  have hlen : ∀ e ∈ save_polyglot book, e.length = 16 :=
    fun e he => length_of_mem_entriesOf book e (hmem e he)
  have hperm : List.Perm (save_polyglot book)
      ((qualPairs book).map (fun t => polyRecord t.1 t.2.1 t.2.2)) := by
    rw [← entriesOf_eq_map]
    exact List.perm_insertionSort rGen (entriesOf book)
  have hcount : (save_polyglot book).length = (qualPairs book).length := by
    rw [hperm.length_eq, List.length_map]
  have hout : (outputBytes book).length = 16 * (qualPairs book).length := by
    rw [outputBytes, flattenRecs_length _ hlen, hcount]
  refine ⟨hlen, hperm, hcount, hout, by rw [hout]; exact Nat.mul_mod_right 16 _, ?_⟩
  intro t _
  rfl

/-- C5 witness: on the concrete book `cbook1` the record of the pair
(key 0, move `mA`) is emitted and is 16 bytes long. -/
theorem spec_c5_witness : (polyRecord 0 mA 10).length = 16 :=
  (spec_c5 cbook1).1 (polyRecord 0 mA 10) (by decide)

/-- C8 (confirmed): drop moves are silently excluded from serialized
output and their exclusion is not fatal — both serializers produce
byte-for-byte the same record list on a book as on the same book with
every drop move deleted, whatever weight the drop moves carry. -/
theorem spec_c8 (book : Book) :
    save_polyglot (dropFilter book) = save_polyglot book ∧
    save_polyglot_std (dropFilter book) = save_polyglot_std book := by
  constructor
  · unfold save_polyglot
    rw [entriesOf_dropFilter]
  · unfold save_polyglot_std
    rw [entriesStd_eq, entriesStd_eq, entriesOf_dropFilter]

/-- C2 (counterexample to the claim as stated): `normalize` truncates
(Python `int()` on a nonnegative float), it does not round.  On the
concrete entry `cpos2` with weights 1 and 999 (sum 1000), the code
gives the first move weight `max(1, int(2.52)) = 2`, while the claimed
formula `max(1, round(w / S * MAX_BOOK_WEIGHT))` gives 3. -/
theorem spec_c2_counterexample :
    weightAt (normalizePos cpos2) 0 = 2 ∧
    max 1 (Int.toNat (round ((weightAt cpos2 0 * MAX_BOOK_WEIGHT : ℚ) / (sumWeights cpos2 : ℚ)))) = 3 := by
  constructor
  · decide
  · norm_num [cpos2, weightAt, sumWeights, mA, mB, MAX_BOOK_WEIGHT, round_eq]
    decide

/-- C2 (amended): for every entry whose pre-normalization weight sum
`S` is positive, `normalize` replaces each weight `w` by
`max(1, floor(w / S * MAX_BOOK_WEIGHT))` — truncation of the exact
quotient, not rounding; entries with `S <= 0` are left untouched. -/
theorem spec_c2_amended (pos : BookPosition) :
    (sumWeights pos ≤ 0 → normalizePos pos = pos) ∧
    (0 < sumWeights pos → ∀ i, i < pos.length →
      weightAt (normalizePos pos) i =
        max 1 (Nat.floor ((weightAt pos i * MAX_BOOK_WEIGHT : ℚ) / (sumWeights pos : ℚ)))) := by
  constructor
  · intro h
    unfold normalizePos
    rw [if_pos h]
  · intro h i hi
    rw [weightAt_normalizePos pos h i hi, floor_cast_eq_div]

/-- C2 witness: on the concrete entry `cpos7` (weights 10, 5, 5, sum
20) the first normalized weight equals the floor formula, evaluating to
1260. -/
theorem spec_c2_witness :
    weightAt (normalizePos cpos7) 0 =
      max 1 (Nat.floor ((weightAt cpos7 0 * MAX_BOOK_WEIGHT : ℚ) / (sumWeights cpos7 : ℚ))) :=
  (spec_c2_amended cpos7).2 (by decide) 0 (by decide)

/-- C7 (confirmed): for every entry with positive observed total, each
normalized weight lies in `[1, MAX_BOOK_WEIGHT]`, differs from the
exact rescaled value `w * MAX_BOOK_WEIGHT / S` by at most one unit
(the rounding error), and after the jitter step
`min(MAX_BOOK_WEIGHT, w + j)` every weight is still at most
`MAX_BOOK_WEIGHT` whatever jitter `j` is drawn. -/
theorem spec_c7 (pos : BookPosition) (h : 0 < sumWeights pos) (i : Nat) (hi : i < pos.length) :
    1 ≤ weightAt (normalizePos pos) i ∧
    weightAt (normalizePos pos) i ≤ MAX_BOOK_WEIGHT ∧
    (weightAt pos i * MAX_BOOK_WEIGHT : ℚ) / (sumWeights pos : ℚ) - 1 ≤
      (weightAt (normalizePos pos) i : ℚ) ∧
    (weightAt (normalizePos pos) i : ℚ) ≤
      (weightAt pos i * MAX_BOOK_WEIGHT : ℚ) / (sumWeights pos : ℚ) + 1 ∧
    ∀ j, jitterWeight j (weightAt (normalizePos pos) i) ≤ MAX_BOOK_WEIGHT := by
  have hnew : weightAt (normalizePos pos) i =
      max 1 (weightAt pos i * MAX_BOOK_WEIGHT / sumWeights pos) :=
    weightAt_normalizePos pos h i hi
  have hx0 : (0 : ℚ) ≤ (weightAt pos i * MAX_BOOK_WEIGHT : ℚ) / (sumWeights pos : ℚ) := by
    positivity
  have hfloor := floor_cast_eq_div (weightAt pos i) (sumWeights pos)
  have hlow : (weightAt pos i * MAX_BOOK_WEIGHT : ℚ) / (sumWeights pos : ℚ) - 1 <
      (Nat.floor ((weightAt pos i * MAX_BOOK_WEIGHT : ℚ) / (sumWeights pos : ℚ)) : ℚ) :=
    Nat.sub_one_lt_floor _
  have hfle : (Nat.floor ((weightAt pos i * MAX_BOOK_WEIGHT : ℚ) / (sumWeights pos : ℚ)) : ℚ) ≤
      (weightAt pos i * MAX_BOOK_WEIGHT : ℚ) / (sumWeights pos : ℚ) :=
    Nat.floor_le hx0
  refine ⟨by rw [hnew]; exact le_max_left _ _, weightAt_normalizePos_le pos h i hi, ?_, ?_, ?_⟩
  · have hcast : (weightAt pos i * MAX_BOOK_WEIGHT / sumWeights pos : Nat) ≤
        weightAt (normalizePos pos) i := by
      rw [hnew]
      exact le_max_right _ _
    have := (Nat.cast_le (α := ℚ)).mpr hcast
    rw [hfloor] at hlow
    linarith
  · rcases Nat.eq_zero_or_pos (weightAt pos i * MAX_BOOK_WEIGHT / sumWeights pos) with h0 | h1
    · rw [hnew, h0]
      norm_num
      linarith
    · rw [hnew, max_eq_right h1]
      rw [hfloor] at hfle
      linarith
  · intro j
    rw [jitterWeight]
    exact min_le_left _ _

/-- C7 witness: on the concrete entry `cpos7` (weights 10, 5, 5, sum
20) the first normalized weight is between 1 and `MAX_BOOK_WEIGHT` and
survives the jitter clip. -/
theorem spec_c7_witness :
    1 ≤ weightAt (normalizePos cpos7) 0 ∧
    weightAt (normalizePos cpos7) 0 ≤ MAX_BOOK_WEIGHT ∧
    jitterWeight 2 (weightAt (normalizePos cpos7) 0) ≤ MAX_BOOK_WEIGHT := by
  have h := spec_c7 cpos7 (by decide) 0 (by decide)
  exact ⟨h.1, h.2.1, h.2.2.2.2 2⟩

/-- C10 (confirmed): `normalize` bounds each weight individually by
`MAX_BOOK_WEIGHT` but not the per-entry total: the entry
`mkBigPos (MAX_BOOK_WEIGHT + 1)` holds 2521 distinct moves of weight 1
each (sum 2521 > 0), and after `normalize` (every weight floored up to
1) the entry total is 2521, strictly above `MAX_BOOK_WEIGHT`. -/
theorem spec_c10 :
    (∀ pos : BookPosition, 0 < sumWeights pos → ∀ i, i < pos.length →
      weightAt (normalizePos pos) i ≤ MAX_BOOK_WEIGHT) ∧
    List.Nodup ((mkBigPos (MAX_BOOK_WEIGHT + 1)).map Prod.fst) ∧
    0 < sumWeights (mkBigPos (MAX_BOOK_WEIGHT + 1)) ∧
    MAX_BOOK_WEIGHT < sumWeights (normalizePos (mkBigPos (MAX_BOOK_WEIGHT + 1))) := by
  refine ⟨weightAt_normalizePos_le, mkBigPos_keys_nodup _, ?_, ?_⟩
  · rw [sumWeights_mkBigPos]
    exact Nat.succ_pos _
  · rw [sumWeights_normalize_mkBigPos _ (Nat.lt_succ_self _)]
    exact Nat.lt_succ_self _

/-- C10 witness: the individual bound applied at the concrete entry
`cpos2`, index 1. -/
theorem spec_c10_witness : weightAt (normalizePos cpos2) 1 ≤ MAX_BOOK_WEIGHT :=
  spec_c10.1 cpos2 (by decide) 1 (by decide)

/-- C3 (confirmed): at every replayed ply below the maximum ply count
the loop body of `build_book` performs exactly the `recordPly` update,
and that update adds to the observed move's weight `5 * decay` when the
game is decisive and the side to move is the winner, `2 * decay` when
decisive and the side to move is not the winner, and `3 * decay` for a
draw or unknown outcome, where `decay = max(1, (maxPly - ply) / 5)`. -/
theorem spec_c3 {B : Type} (R : Rules B) (winner : Option Bool) (maxPly ply : Nat)
    (b : B) (m : Move) (book : Book) (h : ply < maxPly) :
    (∀ ms, ingestFrom R winner maxPly ply b (m :: ms) book =
      match R.push b m with
      | some b2 => ingestFrom R winner maxPly (ply + 1) b2 ms (recordPly R winner maxPly ply b m book)
      | none => recordPly R winner maxPly ply b m book) ∧
    weightIn (recordPly R winner maxPly ply b m book) (R.keyOf b) m =
      weightIn book (R.keyOf b) m +
        (match winner with
         | some w => if R.turnOf b = w then 5 * max 1 ((maxPly - ply) / 5)
                     else 2 * max 1 ((maxPly - ply) / 5)
         | none => 3 * max 1 ((maxPly - ply) / 5)) := by
  constructor
  · intro ms
    simp only [ingestFrom]
    rw [if_neg (Nat.not_le.mpr h)]
  · rw [recordPly, weightIn_recordInBook]
    rcases winner with _ | w
    · rfl
    · rfl

/-- C3 witness: one concrete ply of a decisive game, side to move equal
to the winner: the step is the loop body and the move gains
`5 * max 1 ((50 - 0) / 5) = 50` weight. -/
theorem spec_c3_witness :
    ingestFrom RNatOk (some true) 50 0 0 [mA] [] =
      ingestFrom RNatOk (some true) 50 1 1 [] (recordPly RNatOk (some true) 50 0 0 mA []) ∧
    weightIn (recordPly RNatOk (some true) 50 0 0 mA []) (RNatOk.keyOf 0) mA =
      weightIn ([] : Book) (RNatOk.keyOf 0) mA + 5 * max 1 ((50 - 0) / 5) := by
  have h := spec_c3 RNatOk (some true) 50 0 0 mA [] (by decide)
  refine ⟨?_, ?_⟩
  · have h1 := h.1 []
    simpa [RNatOk] using h1
  · have h2 := h.2
    simpa [RNatOk] using h2

/-- C4 (counterexample to the claim as stated): in the Python loop the
weight update precedes `board.push(move)` inside the same try block, so
a game whose replay fails at ply k still records the increment OF ply k.
Concretely, with a rules engine whose push always fails, a one-move
game fails at ply 0 yet contributes weight `3 * max 1 (50 / 5) = 30` to
the observed move, where the claim says it contributes nothing. -/
theorem spec_c4_counterexample :
    weightIn (ingestFrom RNat none 50 0 0 [mA] []) (RNat.keyOf 0) mA = 30 ∧
    ingestFrom RNat none 50 0 0 [mA] [] ≠ ([] : Book) := by decide

/-- C4 (amended): a game whose replay fails at ply k (the push of the
k-th move raises) contributes exactly the recorded increments of plies
[0, k] — the failing ply's own record included, since the weight update
precedes the push — and nothing from ply k + 1 onward; the book equals
the one obtained by ingesting the game truncated after the failing
move. -/
theorem spec_c4_amended {B : Type} (R : Rules B) (winner : Option Bool) (maxPly : Nat) :
    ∀ (ms1 : List Move) (ply : Nat) (b b2 : B) (m : Move) (ms2 : List Move) (book : Book),
    replayTo R b ms1 = some b2 → R.push b2 m = none → ply + ms1.length < maxPly →
    ingestFrom R winner maxPly ply b (ms1 ++ m :: ms2) book =
      recordPly R winner maxPly (ply + ms1.length) b2 m
        (ingestFrom R winner maxPly ply b ms1 book)
  | [], ply, b, b2, m, ms2, book, hr, hf, hp => by
    have hb : b = b2 := Option.some.inj (by simpa [replayTo] using hr)
    subst hb
    simp only [List.nil_append, List.length_nil, Nat.add_zero]
    simp only [ingestFrom]
    rw [if_neg (Nat.not_le.mpr (by simpa using hp)), hf]
  | x :: xs, ply, b, b2, m, ms2, book, hr, hf, hp => by
    rcases hpush : R.push b x with _ | b1
    · rw [replayTo, hpush] at hr
      exact absurd hr (by simp)
    · rw [replayTo, hpush] at hr
      have hply : ply < maxPly := by
        simp only [List.length_cons] at hp
        omega
      have hp2 : (ply + 1) + xs.length < maxPly := by
        simp only [List.length_cons] at hp
        omega
      have ih := spec_c4_amended R winner maxPly xs (ply + 1) b1 b2 m ms2
        (recordPly R winner maxPly ply b x book) hr hf hp2
      simp only [List.cons_append, ingestFrom, if_neg (Nat.not_le.mpr hply), hpush,
        List.append_eq]
      rw [ih]
      have hnum : ply + 1 + xs.length = ply + (xs.length + 1) := by omega
      rw [hnum]
      simp [List.length_cons]

/-- C4 witness: with the always-failing rules engine, ingesting the
two-move game `[mA, mB]` equals recording only the failing first move
(the second move contributes nothing). -/
theorem spec_c4_witness :
    ingestFrom RNat none 50 0 0 [mA, mB] [] =
      recordPly RNat none 50 (0 + ([] : List Move).length) 0 mA
        (ingestFrom RNat none 50 0 0 [] []) :=
  spec_c4_amended RNat none 50 [] 0 0 0 mA [mB] [] rfl rfl (by decide)

/-- C6 (confirmed): for every non-drop move with in-range squares and
promotion piece, the 16-bit code places the destination in bits 0-5,
the origin in bits 6-11, the promotion code (0 none, knight 1, bishop
2, rook 3, queen 4) in bits 12-14, leaves bit 15 zero, and bit-field
extraction recovers origin, destination and promotion exactly. -/
theorem spec_c6 (m : Move) (hf : m.fromSq < 64) (ht : m.toSq < 64)
    (hp : ∀ p, m.promotion = some p → KNIGHT ≤ p ∧ p ≤ QUEEN) :
    encodeMove m % 64 = m.toSq ∧
    encodeMove m / 64 % 64 = m.fromSq ∧
    (m.promotion = none → encodeMove m / 4096 % 8 = 0) ∧
    (∀ p, m.promotion = some p → encodeMove m / 4096 % 8 = p - 1) ∧
    (m.promotion = some KNIGHT → encodeMove m / 4096 % 8 = 1) ∧
    (m.promotion = some BISHOP → encodeMove m / 4096 % 8 = 2) ∧
    (m.promotion = some ROOK → encodeMove m / 4096 % 8 = 3) ∧
    (m.promotion = some QUEEN → encodeMove m / 4096 % 8 = 4) ∧
    encodeMove m < 32768 ∧
    decodeMove (encodeMove m) = (m.toSq, m.fromSq, m.promotion) := by
  rcases m with ⟨f, t, pr, d⟩
  simp only at hf ht hp ⊢
  rcases pr with _ | p
  · have he : encodeMove { fromSq := f, toSq := t, promotion := none, isDrop := d } = t + f * 64 := by
      simp [encodeMove, Nat.shiftLeft_eq]
    rw [he]
    have h1 : (t + f * 64) % 64 = t := by omega
    have h2 : (t + f * 64) / 64 % 64 = f := by omega
    have h3 : (t + f * 64) / 4096 % 8 = 0 := by omega
    refine ⟨h1, h2, fun _ => h3, ?_, ?_, ?_, ?_, ?_, by omega, ?_⟩
    · intro p hc
      exact Option.noConfusion hc
    · intro hc
      exact Option.noConfusion hc
    · intro hc
      exact Option.noConfusion hc
    · intro hc
      exact Option.noConfusion hc
    · intro hc
      exact Option.noConfusion hc
    · simp [decodeMove, h1, h2, h3]
  · have hpk := hp p rfl
    simp only [KNIGHT, QUEEN] at hpk
    have he : encodeMove { fromSq := f, toSq := t, promotion := some p, isDrop := d } =
        t + f * 64 + (p - 1) * 4096 := by
      simp [encodeMove, Nat.shiftLeft_eq]
    rw [he]
    have h1 : (t + f * 64 + (p - 1) * 4096) % 64 = t := by omega
    have h2 : (t + f * 64 + (p - 1) * 4096) / 64 % 64 = f := by omega
    have h3 : (t + f * 64 + (p - 1) * 4096) / 4096 % 8 = p - 1 := by omega
    refine ⟨h1, h2, ?_, ?_, ?_, ?_, ?_, ?_, by omega, ?_⟩
    · intro hc
      exact Option.noConfusion hc
    · intro p2 hc
      rw [← Option.some.inj hc]
      exact h3
    · intro hc
      have hpe : p = 2 := by simpa [KNIGHT] using Option.some.inj hc
      subst hpe
      omega
    · intro hc
      have hpe : p = 3 := by simpa [BISHOP] using Option.some.inj hc
      subst hpe
      omega
    · intro hc
      have hpe : p = 4 := by simpa [ROOK] using Option.some.inj hc
      subst hpe
      omega
    · intro hc
      have hpe : p = 5 := by simpa [QUEEN] using Option.some.inj hc
      subst hpe
      omega
    · have hne2 : ¬(p - 1 = 0) := by omega
      have hsucc : p - 1 + 1 = p := by omega
      simp [decodeMove, h1, h2, h3, hne2, hsucc]

/-- C6 witness: the concrete promotion move e7e8q (origin 52,
destination 60, queen) encodes to a code below 32768 and decodes back
to itself. -/
theorem spec_c6_witness :
    decodeMove (encodeMove mQ) = (mQ.toSq, mQ.fromSq, mQ.promotion) ∧ encodeMove mQ < 32768 := by
  have h := spec_c6 mQ (by decide) (by decide)
    (fun p hc => by
      rw [← Option.some.inj hc]
      exact ⟨by decide, by decide⟩)
  exact ⟨h.2.2.2.2.2.2.2.2.2, h.2.2.2.2.2.2.2.2.1⟩

/-- C9 (counterexample to the claim as stated): in
book-builder-general.py a parse failure on either rating header zeroes
BOTH rating values, not just the affected one.  With an unparseable
WhiteElo and BlackElo 3000 the code rejects the game, while the claimed
treat-the-affected-value-as-0 semantics would admit it (3000 meets the
2350 threshold). -/
theorem spec_c9_counterexample :
    admitEloGeneral EloTag.bad (EloTag.val 3000) = false ∧
    admitEloSpecAtLeastOne MIN_RATING EloTag.bad (EloTag.val 3000) = true := by decide

/-- C9 (amended): missing rating headers are treated as 0 and still
evaluated against the threshold in all three scripts; an unparseable
rating header instead causes the game to be rejected — in
book-builder-general.py by zeroing both rating values below the
threshold, in filter_and_build.py and color-variant.py by skipping the
game outright in the ValueError handler. -/
theorem spec_c9_amended (w b : EloTag) :
    (w ≠ EloTag.bad → b ≠ EloTag.bad →
      admitEloGeneral w b = admitEloSpecAtLeastOne MIN_RATING w b ∧
      admitEloAntichess w b = admitEloSpecBoth MIN_RATING_antichess w b ∧
      admitEloTournament w b = admitEloSpecBoth MIN_RATING_tournament w b) ∧
    (w = EloTag.bad ∨ b = EloTag.bad →
      admitEloGeneral w b = false ∧ admitEloAntichess w b = false ∧
      admitEloTournament w b = false) := by
  constructor
  · intro hw hb
    have hok : ¬(w = EloTag.bad ∨ b = EloTag.bad) := by
      rintro (hc | hc)
      · exact hw hc
      · exact hb hc
    refine ⟨?_, ?_, ?_⟩
    · rw [admitEloGeneral, admitEloSpecAtLeastOne, elosGeneral, if_neg hok]
    · rw [admitEloAntichess, admitEloSpecBoth, if_neg hok]
    · rw [admitEloTournament, admitEloSpecBoth, if_neg hok]
  · intro hbad
    refine ⟨?_, ?_, ?_⟩
    · rw [admitEloGeneral, elosGeneral, if_pos hbad]
      decide
    · rw [admitEloAntichess, if_pos hbad]
    · rw [admitEloTournament, if_pos hbad]

/-- C9 witness: a missing WhiteElo with BlackElo 2400 is treated as 0
and evaluated, agreeing with the spec's semantics in
book-builder-general.py. -/
theorem spec_c9_witness :
    admitEloGeneral EloTag.missing (EloTag.val 2400) =
      admitEloSpecAtLeastOne MIN_RATING EloTag.missing (EloTag.val 2400) :=
  ((spec_c9_amended EloTag.missing (EloTag.val 2400)).1 (by decide) (by decide)).1

end StrainOnVeins
